import Mathlib

/-!
# Login and registration system: validator, credential codec, account store

A shallow embedding of `LOGIN_AND_REGISTRATIONSystem.cpp`.

* A `std::string` is a list of bytes (`CppString`).
* The `users` table is a list of rows in insertion order (`Database`), with the
  `AUTOINCREMENT` counter next to it.
* `datetime('now')` is a clock value handed to every operation that stamps a row.
* A statement that runs is assumed to be prepared and stepped without an
  engine error (the database is open and the table exists); the failures the
  table itself causes are modelled: the `UNIQUE` constraint and the exhaustion
  of 64-bit rowids on `INSERT`, and the overflow of the 64-bit sum in
  `failed_attempts + 1`.
* A stored number is recorded by its value; a value outside the 64-bit range
  stands for the REAL an overflowing sum turns into.
-/

namespace LoginRegistrationSystem

/-! ## Strings -/

/-- One `char` of a `std::string`, as its unsigned byte value. -/
abbrev Byte := Fin 256

/-- A `std::string`: a sequence of bytes, embedded NUL bytes allowed. -/
abbrev CppString := List Byte

/-! ## Validator -/

/-- One range `lo-hi` of a bracket expression. -/
def inRange (lo hi : Nat) (c : Byte) : Bool :=
  decide (lo ≤ c.val) && decide (c.val ≤ hi)

/-- The bracket expression `[a-zA-Z0-9_]` of `usernamePattern`. -/
def usernameClass (c : Byte) : Bool :=
  inRange 97 122 c || inRange 65 90 c || inRange 48 57 c || decide (c.val = 95)

/-- Match of `^X{lo,hi}$` against a whole string, as `regex_match` does it,
for a one-character atom `X`: each character is consumed by one repetition,
the input has to end after at least `lo` and at most `hi` repetitions. -/
def matchRepeat (cls : Byte → Bool) : Nat → Nat → CppString → Bool
  | lo, _, [] => decide (lo = 0)
  | _, 0, _ :: _ => false
  | lo, hi + 1, c :: cs => cls c && matchRepeat cls (lo - 1) hi cs

/-- Function `isValidUsername`: `regex_match(username, "^[a-zA-Z0-9_]{3,20}$")`. -/
def isValidUsername (username : CppString) : Bool :=
  matchRepeat usernameClass 3 20 username

/-- Function `isalpha` in the "C" locale (no byte above 127 is in a class; the
call on a negative `char` is outside the C standard, and the claims on
passwords are stated for ASCII text). -/
def isalpha (c : Byte) : Bool := inRange 65 90 c || inRange 97 122 c

/-- Function `isdigit`. -/
def isdigit (c : Byte) : Bool := inRange 48 57 c

/-- Function `ispunct` in the "C" locale: the printing characters that are neither a
space nor alphanumeric. -/
def ispunct (c : Byte) : Bool :=
  inRange 33 47 c || inRange 58 64 c || inRange 91 96 c || inRange 123 126 c

/-- The three flags of the loop in `isValidPassword`. -/
structure PasswordFlags where
  hasLetter : Bool
  hasDigit : Bool
  hasSpecial : Bool
deriving DecidableEq, Repr

/-- One iteration of `for (char c : password)`: the `if / else if / else if`
chain. -/
def scanChar (f : PasswordFlags) (c : Byte) : PasswordFlags :=
  if isalpha c then { f with hasLetter := true }
  else if isdigit c then { f with hasDigit := true }
  else if ispunct c then { f with hasSpecial := true }
  else f

/-- Function `isValidPassword`: the length test, the loop over the characters,
the conjunction of the three flags. -/
def isValidPassword (password : CppString) : Bool :=
  if password.length < 8 then false
  else
    let f := password.foldl scanChar ⟨false, false, false⟩
    f.hasLetter && f.hasDigit && f.hasSpecial

/-! ### The validator's contract in the words of the specification -/

/-- An ASCII letter. -/
def IsAsciiLetter (c : Byte) : Prop :=
  (65 ≤ c.val ∧ c.val ≤ 90) ∨ (97 ≤ c.val ∧ c.val ≤ 122)

/-- A decimal digit. -/
def IsAsciiDigit (c : Byte) : Prop := 48 ≤ c.val ∧ c.val ≤ 57

/-- The underscore. -/
def IsUnderscore (c : Byte) : Prop := c.val = 95

/-- A printable character (space included): 32 to 126. -/
def IsPrintable (c : Byte) : Prop := 32 ≤ c.val ∧ c.val ≤ 126

/-- White space: space, and the controls tab to carriage return. -/
def IsWhitespace (c : Byte) : Prop := c.val = 32 ∨ (9 ≤ c.val ∧ c.val ≤ 13)

/-- A punctuation character: printable, not alphanumeric, not white space. -/
def IsPunctuation (c : Byte) : Prop :=
  IsPrintable c ∧ ¬ IsAsciiLetter c ∧ ¬ IsAsciiDigit c ∧ ¬ IsWhitespace c

/-- The username rule: 3 to 20 characters, each a letter, a digit or `_`. -/
def UsernameRule (u : CppString) : Prop :=
  3 ≤ u.length ∧ u.length ≤ 20 ∧
    ∀ c ∈ u, IsAsciiLetter c ∨ IsAsciiDigit c ∨ IsUnderscore c

/-- The password rule: at least 8 characters, with a letter, a digit and a
punctuation character among them. -/
def PasswordRule (p : CppString) : Prop :=
  8 ≤ p.length ∧ (∃ c ∈ p, IsAsciiLetter c) ∧ (∃ c ∈ p, IsAsciiDigit c) ∧
    (∃ c ∈ p, IsPunctuation c)

/-! ## Credential codec -/

/-- The byte with value `n` modulo 256. -/
def byte (n : Nat) : Byte := ⟨n % 256, Nat.mod_lt _ (by decide)⟩

/-- The bytes of a string literal (its code points, each reduced to a byte). -/
def str (s : String) : CppString := s.data.map fun ch => byte ch.toNat

/-- The XOR key of `hashPassword`. -/
def key : Nat := 42

/-- Body of the first loop of `hashPassword`, `c = c ^ key`: the XOR is taken
on the promoted `int` and stored back into the `char`, which keeps its low
eight bits. -/
def xorByte (c : Byte) : Byte := byte (c.val ^^^ key)

/-- The character of one hexadecimal digit as `std::hex` prints it (lower
case). -/
def hexDigit (d : Nat) : Byte := if d < 10 then byte (48 + d) else byte (97 + (d - 10))

/-- Digits of `n` in base 16, most significant first, pushed in front of `acc`;
`fuel` bounds the number of digits. -/
def hexDigitsAux : Nat → Nat → List Byte → List Byte
  | 0, n, acc => hexDigit (n % 16) :: acc
  | fuel + 1, n, acc =>
    if n / 16 = 0 then hexDigit (n % 16) :: acc
    else hexDigitsAux fuel (n / 16) (hexDigit (n % 16) :: acc)

/-- What `ss << hex << n` writes for a non-negative `int`, with no field
width: the hexadecimal digits of `n` without leading zeros. -/
def hexDigits (n : Nat) : List Byte := hexDigitsAux n n []

/-- Field of `setw(w)` and `setfill(fill)`: fill characters in front, up to
width `w`; a longer text is not cut. -/
def setwFill (w : Nat) (fill : Byte) (s : List Byte) : List Byte :=
  List.replicate (w - s.length) fill ++ s

/-- Body of the second loop of `hashPassword`:
`hex << setw(2) << setfill('0') << (int)c` for an `unsigned char c`. -/
def hexByte (c : Byte) : List Byte := setwFill 2 (byte 48) (hexDigits c.val)

/-- Function `hashPassword`: XOR every byte with the key, then write every byte in
hexadecimal to the stream. -/
def hashPassword (password : CppString) : CppString :=
  let hashed := password.map xorByte
  hashed.foldl (fun ss c => ss ++ hexByte c) []

/-! ## The `users` table and the SQLite boundary -/

/-- The value of `datetime('now')`. -/
abbrev Timestamp := Nat

/-- One row of `users`. -/
structure Account where
  id : Nat
  username : CppString
  password_hash : CppString
  registration_date : Timestamp
  last_login : Option Timestamp
  is_active : Int
  failed_attempts : Int
deriving DecidableEq, Repr

/-- The table `users`, rows in rowid order, and the largest rowid ever handed
out (the `AUTOINCREMENT` counter). -/
structure Database where
  users : List Account
  sequence : Nat
deriving DecidableEq, Repr

/-- The table right after `CREATE TABLE IF NOT EXISTS` on a new file. -/
def Database.empty : Database := { users := [], sequence := 0 }

/-- Text handed over as a `char*` with length `-1`, or read back through
`(char*)`: the bytes in front of the first NUL byte. -/
def cstr (s : CppString) : CppString := s.takeWhile fun c => decide (c.val ≠ 0)

/-- The text bound by `sqlite3_bind_text(stmt, i, s.c_str(), -1, SQLITE_STATIC)`. -/
def bindText (s : CppString) : CppString := cstr s

/-- The text read by `string x = (char*)sqlite3_column_text(stmt, i)` from a
stored text. -/
def columnText (t : CppString) : CppString := cstr t

/-- Result of `sqlite3_column_int` on a stored integer: its low 32 bits, signed. -/
def columnInt (v : Int) : Int := (v + 2147483648) % 4294967296 - 2147483648

/-- The rows selected by `WHERE username = ?` for a bound text. -/
def whereUsername (name : CppString) (r : Account) : Bool := decide (r.username = name)

/-- Function `userExists`: `SELECT COUNT(*) FROM users WHERE username = ?`. -/
def userExists (db : Database) (username : CppString) : Bool :=
  let count := db.users.countP (whereUsername (bindText username))
  decide (count > 0)

/-- The rowid an `INTEGER PRIMARY KEY AUTOINCREMENT` column gives the next
row: one more than the largest rowid in the table or ever handed out. -/
def nextId (db : Database) : Nat :=
  max db.sequence (db.users.foldl (fun m r => max m r.id) 0) + 1

/-- The largest rowid, `2^63 - 1`. -/
def maxRowid : Nat := 9223372036854775807

/-- The largest 64-bit INTEGER of SQLite, `2^63 - 1`. -/
def int64Max : Int := 9223372036854775807

/-- The smallest 64-bit INTEGER of SQLite, `-2^63`. -/
def int64Min : Int := -9223372036854775808

/-- The sum `failed_attempts + 1` as SQLite computes it. On a 64-bit INTEGER
below the top of the range it is the integer sum. At the top the integer sum
overflows and the result is the REAL `9223372036854775808.0`. A value outside
the 64-bit range is a REAL of that size, and adding 1 to it gives the same
REAL back. -/
def sqlAddOne (v : Int) : Int :=
  if int64Min ≤ v ∧ v < int64Max then v + 1
  else if v = int64Max then int64Max + 1
  else v

/-- Function `insertUser`: the `INSERT` fails on the `UNIQUE` constraint of
`username`, and with `SQLITE_FULL` when the largest rowid has been handed out
(in both cases the step does not return `SQLITE_DONE` and the table is as
before); otherwise the row gets the bound username and hash,
`registration_date = datetime('now')` and the column defaults
`last_login = NULL`, `is_active = 1`, `failed_attempts = 0`. -/
def insertUser (db : Database) (username password : CppString) (now : Timestamp) :
    Bool × Database :=
  let hashedPassword := hashPassword password
  let name := bindText username
  if db.users.any (whereUsername name) then (false, db)
  else if maxRowid < nextId db then (false, db)
  else
    let row : Account :=
      { id := nextId db
        username := name
        password_hash := bindText hashedPassword
        registration_date := now
        last_login := none
        is_active := 1
        failed_attempts := 0 }
    (true, { users := db.users ++ [row], sequence := nextId db })

/-- Function `updateLastLogin`:
`UPDATE users SET last_login = datetime('now'), failed_attempts = 0 WHERE username = ?`. -/
def updateLastLogin (db : Database) (username : CppString) (now : Timestamp) : Database :=
  { db with users := db.users.map fun r =>
      if whereUsername (bindText username) r then
        { r with last_login := some now, failed_attempts := 0 }
      else r }

/-- Function `incrementFailedAttempts`:
`UPDATE users SET failed_attempts = failed_attempts + 1 WHERE username = ?`. -/
def incrementFailedAttempts (db : Database) (username : CppString) : Database :=
  { db with users := db.users.map fun r =>
      if whereUsername (bindText username) r then
        { r with failed_attempts := sqlAddOne r.failed_attempts }
      else r }

/-- The comparison of `verifyCredentials`:
`hashedPassword = hashPassword(password); storedHash == hashedPassword`. -/
def hashMatches (storedHash password : CppString) : Bool :=
  let hashedPassword := hashPassword password
  decide (storedHash = hashedPassword)

/-- The flag `isValid` of `verifyCredentials`: the first row selected by
`SELECT password_hash, is_active FROM users WHERE username = ?`, if there is
one, has to be active and to hold the hash of the password. -/
def credentialsValid (db : Database) (username password : CppString) : Bool :=
  match db.users.find? (whereUsername (bindText username)) with
  | some row =>
    let storedHash := columnText row.password_hash
    let isActive := columnInt row.is_active
    if isActive ≠ 0 then hashMatches storedHash password
    else false
  | none => false

/-- Function `verifyCredentials`: the result and the table after the `UPDATE` it runs. -/
def verifyCredentials (db : Database) (username password : CppString) (now : Timestamp) :
    Bool × Database :=
  let isValid := credentialsValid db username password
  if isValid then (isValid, updateLastLogin db username now)
  else (isValid, incrementFailedAttempts db username)

/-- What `registerUser` prints. -/
inductive RegisterOutcome where
  | invalidUsername
  | duplicateUsername
  | weakPassword
  | passwordMismatch
  | success
  | insertFailed
deriving DecidableEq, Repr

/-- Function `registerUser` on the three texts it reads (the later ones are read only
when the earlier checks pass). -/
def registerUser (db : Database) (username password confirmPassword : CppString)
    (now : Timestamp) : RegisterOutcome × Database :=
  if !isValidUsername username then (.invalidUsername, db)
  else if userExists db username then (.duplicateUsername, db)
  else if !isValidPassword password then (.weakPassword, db)
  else if password ≠ confirmPassword then (.passwordMismatch, db)
  else
    match insertUser db username password now with
    | (true, db') => (.success, db')
    | (false, db') => (.insertFailed, db')

/-- What `loginUser` prints. -/
inductive LoginOutcome where
  | usernameNotFound
  | success
  | invalidPassword
deriving DecidableEq, Repr

/-- Function `loginUser` on the two texts it reads. -/
def loginUser (db : Database) (username password : CppString) (now : Timestamp) :
    LoginOutcome × Database :=
  if !userExists db username then (.usernameNotFound, db)
  else
    match verifyCredentials db username password now with
    | (true, db') => (.success, db')
    | (false, db') => (.invalidPassword, db')

/-! ## The inverse transform -/

/-- Function `isspace` in the "C" locale: the space and the controls tab to
carriage return. -/
def isspace (c : Byte) : Bool := decide (c.val = 32) || inRange 9 13 c

/-- The value of a character as a digit of `strtol`: `0` to `9`, then the
letters of either case from 10 on; no value for any other character. -/
def digitValue (c : Byte) : Option Nat :=
  if inRange 48 57 c then some (c.val - 48)
  else if inRange 97 122 c then some (c.val - 97 + 10)
  else if inRange 65 90 c then some (c.val - 65 + 10)
  else none

/-- Whether a character is a digit of the base. -/
def isDigitOf (base : Nat) (c : Byte) : Bool :=
  match digitValue c with
  | some d => decide (d < base)
  | none => false

/-- The digit loop of `strtol`: the value of the longest run of digits of the
base at the front of the text, on top of `acc`. -/
def strtolDigits (base : Nat) : Nat → CppString → Nat
  | acc, [] => acc
  | acc, c :: cs =>
    match digitValue c with
    | some d => if d < base then strtolDigits base (acc * base + d) cs else acc
    | none => acc

/-- The sign in front of the number of `strtol`, and the text after it. -/
def strtolSign (s : CppString) : Bool × CppString :=
  match s with
  | c :: cs =>
    if c.val = 45 then (true, cs) else if c.val = 43 then (false, cs) else (false, s)
  | [] => (false, s)

/-- The text after the optional `0x` or `0X` of base 16, which `strtol` takes
only in front of a hexadecimal digit. -/
def strtolPrefix (base : Nat) (s : CppString) : CppString :=
  match s with
  | z :: x :: d :: rest =>
    if base = 16 ∧ z.val = 48 ∧ (x.val = 120 ∨ x.val = 88) ∧ isDigitOf base d = true then
      d :: rest
    else s
  | _ => s

/-- Function `strtol(s, nullptr, base)` of the C library on a C string, for a
base from 2 to 36: white space is skipped, then come an optional sign, the
optional prefix of base 16 and the digits; a text with no digit gives 0. The
clamp to the range of `long` is left out: `unhashPassword` passes two
characters at most. -/
def strtol (s : CppString) (base : Nat) : Int :=
  let afterSpace := s.dropWhile isspace
  let signed := strtolSign afterSpace
  let value := strtolDigits base 0 (strtolPrefix base signed.2)
  if signed.1 then - (value : Int) else (value : Int)

/-- The cast `(char)` of a `long`: its low eight bits. -/
def toChar (v : Int) : Byte := byte (v % 256).toNat

/-- One iteration of the loop of `unhashPassword` on `byteString`:
`(char)strtol(byteString.c_str(), nullptr, 16)`, then `byte ^ 42` stored as a
`char`. -/
def unhashByte (byteString : CppString) : Byte :=
  xorByte (toChar (strtol (cstr byteString) 16))

/-- Function `unhashPassword`: the loop `for (i = 0; i < length; i += 2)` takes
`substr(i, 2)`, that is two characters at a time and a single one at the end
of a text of odd length, and pushes one byte for each. -/
def unhashPassword : CppString → CppString
  | [] => []
  | [a] => [unhashByte [a]]
  | a :: b :: rest => unhashByte [a, b] :: unhashPassword rest

/-- A lower-case hexadecimal digit: `0` to `9` or `a` to `f`. -/
def IsLowerHexDigit (c : Byte) : Prop :=
  (48 ≤ c.val ∧ c.val ≤ 57) ∨ (97 ≤ c.val ∧ c.val ≤ 102)

/-- The requests of the menu that write to the table: `1. Register New User`
and `2. Login`, with the texts typed in and the clock at that moment. -/
inductive Request where
  | register (username password confirmPassword : CppString) (now : Timestamp)
  | login (username password : CppString) (now : Timestamp)
deriving DecidableEq, Repr

/-- The table after one request. -/
def Request.apply (db : Database) : Request → Database
  | .register username password confirmPassword now =>
    (registerUser db username password confirmPassword now).2
  | .login username password now => (loginUser db username password now).2

/-- The table after a sequence of requests, as `showMenu` serves them. -/
def run (db : Database) (reqs : List Request) : Database :=
  reqs.foldl Request.apply db

/-! ### Store states -/

/-- A text without NUL byte: what a `char*` of length `-1` can carry. -/
def IsCString (s : CppString) : Prop := ∀ c ∈ s, c.val ≠ 0

/-- What `if (isActive)` tests in `verifyCredentials`. -/
def Account.Active (a : Account) : Prop := columnInt a.is_active ≠ 0

/-- The states of the table: `username` is `UNIQUE`, and the two text columns
hold C strings (every text is bound with length `-1`). -/
def Database.Valid (db : Database) : Prop :=
  (db.users.map Account.username).Nodup ∧
    ∀ r ∈ db.users, IsCString r.username ∧ IsCString r.password_hash

/-- The table with the row `a` replaced by `b`, every other row kept. -/
def Database.replace (db : Database) (a b : Account) : Database :=
  { db with users := db.users.map fun r => if r = a then b else r }

/-- The row `insertUser` writes for a username and a password. -/
def newAccount (db : Database) (username password : CppString) (now : Timestamp) : Account :=
  { id := nextId db
    username := username
    password_hash := hashPassword password
    registration_date := now
    last_login := none
    is_active := 1
    failed_attempts := 0 }

instance decIsCString (s : CppString) : Decidable (IsCString s) :=
  inferInstanceAs (Decidable (∀ c ∈ s, c.val ≠ 0))

instance decActive (a : Account) : Decidable a.Active :=
  inferInstanceAs (Decidable (columnInt a.is_active ≠ 0))

instance decValid (db : Database) : Decidable db.Valid :=
  inferInstanceAs (Decidable ((db.users.map Account.username).Nodup ∧
    ∀ r ∈ db.users, IsCString r.username ∧ IsCString r.password_hash))

/-! ### Example data -/

/-- The password `Str0ng!Pw`. -/
def strongPw : CppString := str "Str0ng!Pw"

/-- The username `alice_01`. -/
def alice : CppString := str "alice_01"

/-- The table after `alice_01` registered with `Str0ng!Pw` at time 100. -/
def aliceDb : Database := (registerUser Database.empty alice strongPw strongPw 100).2

/-- The row of `alice_01` in `aliceDb`. -/
def aliceRow : Account := newAccount Database.empty alice strongPw 100

theorem inRange_iff (lo hi : Nat) (c : Byte) :
    inRange lo hi c = true ↔ lo ≤ c.val ∧ c.val ≤ hi := by
  simp [inRange]

theorem usernameClass_iff (c : Byte) :
    usernameClass c = true ↔ IsAsciiLetter c ∨ IsAsciiDigit c ∨ IsUnderscore c := by
  simp only [usernameClass, Bool.or_eq_true, inRange_iff, decide_eq_true_eq,
    IsAsciiLetter, IsAsciiDigit, IsUnderscore]
  tauto

theorem matchRepeat_iff (cls : Byte → Bool) (s : CppString) :
    ∀ lo hi : Nat, matchRepeat cls lo hi s = true ↔
      lo ≤ s.length ∧ s.length ≤ hi ∧ ∀ c ∈ s, cls c = true := by
  induction s with
  | nil => intro lo hi; simp [matchRepeat]
  | cons c cs ih =>
    intro lo hi
    cases hi with
    | zero => simp [matchRepeat]
    | succ hi =>
      simp only [matchRepeat, Bool.and_eq_true, ih, List.length_cons, List.mem_cons,
        forall_eq_or_imp]
      constructor
      · rintro ⟨h1, h2, h3, h4⟩
        exact ⟨by omega, by omega, h1, h4⟩
      · rintro ⟨h1, h2, h3, h4⟩
        exact ⟨h3, by omega, by omega, h4⟩

theorem isValidUsername_iff (u : CppString) :
    isValidUsername u = true ↔ UsernameRule u := by
  unfold isValidUsername UsernameRule
  rw [matchRepeat_iff]
  simp only [usernameClass_iff]

/-- C1. `isValidUsername u` is true exactly when `u` has between 3 and 20
characters and each of them is an ASCII letter, an ASCII digit or an
underscore; so a username that is shorter than 3, longer than 20, or holds a
character outside `[A-Za-z0-9_]` is rejected. -/
theorem isValidUsername_iff_rule (u : CppString) :
    (isValidUsername u = true ↔ UsernameRule u) ∧
    ((u.length < 3 ∨ 20 < u.length ∨
        ∃ c ∈ u, ¬ (IsAsciiLetter c ∨ IsAsciiDigit c ∨ IsUnderscore c)) →
      isValidUsername u = false) := by
  refine ⟨isValidUsername_iff u, ?_⟩
  intro h
  rw [← Bool.not_eq_true, isValidUsername_iff]
  rintro ⟨h1, h2, h3⟩
  rcases h with h | h | ⟨c, hc, hn⟩
  · omega
  · omega
  · exact hn (h3 c hc)

theorem isalpha_iff (c : Byte) : isalpha c = true ↔ IsAsciiLetter c := by
  simp only [isalpha, Bool.or_eq_true, inRange_iff, IsAsciiLetter]

theorem isdigit_iff (c : Byte) : isdigit c = true ↔ IsAsciiDigit c := by
  simp only [isdigit, inRange_iff, IsAsciiDigit]

theorem ispunct_iff (c : Byte) : ispunct c = true ↔ IsPunctuation c := by
  simp only [ispunct, Bool.or_eq_true, inRange_iff, IsPunctuation, IsPrintable,
    IsAsciiLetter, IsAsciiDigit, IsWhitespace]
  omega

theorem isdigit_of_isalpha (c : Byte) (h : isalpha c = true) : isdigit c = false := by
  rw [← Bool.not_eq_true, isdigit_iff]
  rw [isalpha_iff] at h
  unfold IsAsciiLetter at h
  unfold IsAsciiDigit
  omega

theorem ispunct_of_isalpha (c : Byte) (h : isalpha c = true) : ispunct c = false := by
  rw [← Bool.not_eq_true, ispunct_iff]
  rw [isalpha_iff] at h
  exact fun hp => hp.2.1 h

theorem ispunct_of_isdigit (c : Byte) (h : isdigit c = true) : ispunct c = false := by
  rw [← Bool.not_eq_true, ispunct_iff]
  rw [isdigit_iff] at h
  exact fun hp => hp.2.2.1 h

/-- The `else if` chain sets each flag exactly on its own class, the three
classes being disjoint. -/
theorem scanChar_flags (f : PasswordFlags) (c : Byte) :
    (scanChar f c).hasLetter = (f.hasLetter || isalpha c) ∧
    (scanChar f c).hasDigit = (f.hasDigit || isdigit c) ∧
    (scanChar f c).hasSpecial = (f.hasSpecial || ispunct c) := by
  unfold scanChar
  by_cases ha : isalpha c = true
  · simp [ha, isdigit_of_isalpha c ha, ispunct_of_isalpha c ha]
  · by_cases hd : isdigit c = true
    · simp [ha, hd, ispunct_of_isdigit c hd]
    · by_cases hp : ispunct c = true
      · simp [ha, hd, hp]
      · simp [ha, hd, hp]

theorem foldl_scanChar_flags (p : CppString) :
    ∀ f : PasswordFlags,
      (p.foldl scanChar f).hasLetter = (f.hasLetter || p.any isalpha) ∧
      (p.foldl scanChar f).hasDigit = (f.hasDigit || p.any isdigit) ∧
      (p.foldl scanChar f).hasSpecial = (f.hasSpecial || p.any ispunct) := by
  induction p with
  | nil => intro f; simp
  | cons c cs ih =>
    intro f
    obtain ⟨h1, h2, h3⟩ := ih (scanChar f c)
    obtain ⟨g1, g2, g3⟩ := scanChar_flags f c
    simp only [List.foldl_cons, List.any_cons, h1, h2, h3, g1, g2, g3, Bool.or_assoc,
      and_self]

theorem isValidPassword_iff (p : CppString) :
    isValidPassword p = true ↔ PasswordRule p := by
  obtain ⟨h1, h2, h3⟩ := foldl_scanChar_flags p ⟨false, false, false⟩
  unfold isValidPassword PasswordRule
  by_cases hl : p.length < 8
  · simp only [hl, if_true]
    constructor
    · intro h; cases h
    · rintro ⟨h, _⟩; omega
  · simp only [hl, if_false, h1, h2, h3, Bool.false_or, Bool.and_eq_true, List.any_eq_true,
      isalpha_iff, isdigit_iff, ispunct_iff]
    constructor
    · rintro ⟨⟨a, b⟩, c⟩
      exact ⟨by omega, a, b, c⟩
    · rintro ⟨_, a, b, c⟩
      exact ⟨⟨a, b⟩, c⟩

/-- C2. For a password of ASCII characters, `isValidPassword p` is true
exactly when `p` has at least 8 characters and holds a letter, a decimal digit
and a punctuation character (printable, neither alphanumeric nor white space);
a password that is shorter than 8 or lacks one of the three is rejected; and
there is no maximum length: an accepted password stays accepted under any
ASCII text appended to it. -/
theorem isValidPassword_iff_rule (p : CppString) (_hascii : ∀ c ∈ p, c.val < 128) :
    (isValidPassword p = true ↔ PasswordRule p) ∧
    ((p.length < 8 ∨ (∀ c ∈ p, ¬ IsAsciiLetter c) ∨ (∀ c ∈ p, ¬ IsAsciiDigit c) ∨
        (∀ c ∈ p, ¬ IsPunctuation c)) → isValidPassword p = false) ∧
    (∀ s : CppString, (∀ c ∈ s, c.val < 128) → isValidPassword p = true →
      isValidPassword (p ++ s) = true) := by
  refine ⟨isValidPassword_iff p, ?_, ?_⟩
  · intro h
    rw [← Bool.not_eq_true, isValidPassword_iff]
    rintro ⟨h0, ⟨a, ha, ha'⟩, ⟨b, hb, hb'⟩, ⟨c, hc, hc'⟩⟩
    rcases h with h | h | h | h
    · omega
    · exact h a ha ha'
    · exact h b hb hb'
    · exact h c hc hc'
  · intro s _ h
    rw [isValidPassword_iff] at h ⊢
    obtain ⟨h0, ⟨a, ha, ha'⟩, ⟨b, hb, hb'⟩, ⟨c, hc, hc'⟩⟩ := h
    refine ⟨?_, ⟨a, ?_, ha'⟩, ⟨b, ?_, hb'⟩, ⟨c, ?_, hc'⟩⟩
    · rw [List.length_append]; omega
    · exact List.mem_append_left s ha
    · exact List.mem_append_left s hb
    · exact List.mem_append_left s hc

set_option maxRecDepth 8192 in
/-- Witness of C2 at the password `Str0ng!Pw`. -/
theorem isValidPassword_iff_rule_witness :
    (∀ c ∈ str "Str0ng!Pw", c.val < 128) ∧
    isValidPassword (str "Str0ng!Pw") = true ∧ PasswordRule (str "Str0ng!Pw") :=
  ⟨by decide, by decide,
    (isValidPassword_iff_rule (str "Str0ng!Pw") (by decide)).1.mp (by decide)⟩

/-! ## Codec lemmas -/

theorem foldl_append_acc (f : Byte → List Byte) (l : List Byte) :
    ∀ acc : List Byte,
      l.foldl (fun ss c => ss ++ f c) acc = acc ++ l.foldl (fun ss c => ss ++ f c) [] := by
  induction l with
  | nil => intro acc; simp
  | cons c cs ih =>
    intro acc
    rw [List.foldl_cons, List.foldl_cons, ih (acc ++ f c), ih ([] ++ f c)]
    simp

theorem hashPassword_nil : hashPassword [] = [] := rfl

theorem hashPassword_cons (c : Byte) (cs : CppString) :
    hashPassword (c :: cs) = hexByte (xorByte c) ++ hashPassword cs := by
  unfold hashPassword
  simp only [List.map_cons, List.foldl_cons, List.nil_append]
  rw [foldl_append_acc]

set_option maxRecDepth 100000 in
/-- With width 2 and fill `0`, every byte is written as exactly two digits. -/
theorem hexByte_eq : ∀ c : Byte, hexByte c = [hexDigit (c.val / 16), hexDigit (c.val % 16)] := by
  decide

set_option maxRecDepth 100000 in
theorem xorByte_xorByte : ∀ c : Byte, xorByte (xorByte c) = c := by
  decide

set_option maxRecDepth 100000 in
theorem hexDigit_inj_fin : ∀ a b : Fin 16, hexDigit a.val = hexDigit b.val → a = b := by
  decide

set_option maxRecDepth 100000 in
theorem hexDigit_ne_zero_fin : ∀ a : Fin 16, (hexDigit a.val).val ≠ 0 := by
  decide

theorem hexDigit_inj (a b : Nat) (ha : a < 16) (hb : b < 16)
    (h : hexDigit a = hexDigit b) : a = b := by
  have := hexDigit_inj_fin ⟨a, ha⟩ ⟨b, hb⟩ h
  exact congrArg Fin.val this

theorem hexDigit_ne_zero (a : Nat) (ha : a < 16) : (hexDigit a).val ≠ 0 :=
  hexDigit_ne_zero_fin ⟨a, ha⟩

theorem hexByte_inj (a b : Byte) (h : hexByte a = hexByte b) : a = b := by
  rw [hexByte_eq, hexByte_eq] at h
  simp only [List.cons.injEq, and_true] at h
  have h1 := hexDigit_inj _ _ (by omega) (by omega) h.1
  have h2 := hexDigit_inj _ _ (Nat.mod_lt _ (by decide)) (Nat.mod_lt _ (by decide)) h.2
  apply Fin.ext
  omega

theorem xorByte_inj (a b : Byte) (h : xorByte a = xorByte b) : a = b := by
  rw [← xorByte_xorByte a, ← xorByte_xorByte b, h]

/-- Distinct passwords have distinct hashes. -/
theorem hashPassword_injective (p : CppString) :
    ∀ q : CppString, hashPassword p = hashPassword q → p = q := by
  induction p with
  | nil =>
    intro q h
    cases q with
    | nil => rfl
    | cons d ds =>
      rw [hashPassword_nil, hashPassword_cons, hexByte_eq] at h
      simp at h
  | cons c cs ih =>
    intro q h
    cases q with
    | nil =>
      rw [hashPassword_nil, hashPassword_cons, hexByte_eq] at h
      simp at h
    | cons d ds =>
      rw [hashPassword_cons, hashPassword_cons] at h
      have hc : hexByte (xorByte c) = hexByte (xorByte d) := by
        rw [hexByte_eq, hexByte_eq] at h ⊢
        simp only [List.cons_append, List.nil_append, List.cons.injEq] at h
        simp only [List.cons.injEq, and_true]
        exact ⟨h.1, h.2.1⟩
      have ht : hashPassword cs = hashPassword ds := by
        rw [hc] at h
        exact List.append_cancel_left h
      rw [xorByte_inj c d (hexByte_inj _ _ hc), ih ds ht]

/-- A hash is a text of hexadecimal digits: it holds no NUL byte. -/
theorem hashPassword_no_nul (p : CppString) : ∀ b ∈ hashPassword p, b.val ≠ 0 := by
  induction p with
  | nil => intro b hb; simp [hashPassword_nil] at hb
  | cons c cs ih =>
    intro b hb
    rw [hashPassword_cons, hexByte_eq] at hb
    simp only [List.cons_append, List.nil_append, List.mem_cons] at hb
    rcases hb with hb | hb | hb
    · rw [hb]; exact hexDigit_ne_zero _ (by omega)
    · rw [hb]; exact hexDigit_ne_zero _ (Nat.mod_lt _ (by decide))
    · exact ih b hb

theorem cstr_eq_self (s : CppString) (h : ∀ c ∈ s, c.val ≠ 0) : cstr s = s := by
  unfold cstr
  rw [List.takeWhile_eq_self_iff]
  intro c hc
  simpa using h c hc

theorem cstr_hashPassword (p : CppString) : cstr (hashPassword p) = hashPassword p :=
  cstr_eq_self _ (hashPassword_no_nul p)

/-- C3. Round trip of the credential codec: when the stored hash is the hash
of `p` and the password entered is `p`, the comparison of `verifyCredentials`
is true, also after the hash went through the table (bound as a C string by
`insertUser`, read back as a C string by `verifyCredentials`); the hash
depends on the password alone. -/
theorem hashMatches_roundtrip (p storedHash password : CppString)
    (hs : storedHash = hashPassword p) (hp : password = p) :
    hashMatches storedHash password = true ∧
    hashMatches (columnText (bindText storedHash)) password = true ∧
    hashPassword password = hashPassword p := by
  subst hs hp
  refine ⟨?_, ?_, rfl⟩
  · simp [hashMatches]
  · simp [hashMatches, columnText, bindText, cstr_hashPassword]

/-- Witness of C3 at the password `Str0ng!Pw`. -/
theorem hashMatches_roundtrip_witness :
    hashMatches (hashPassword (str "Str0ng!Pw")) (str "Str0ng!Pw") = true ∧
    hashMatches (columnText (bindText (hashPassword (str "Str0ng!Pw"))))
      (str "Str0ng!Pw") = true ∧
    hashPassword (str "Str0ng!Pw") = hashPassword (str "Str0ng!Pw") :=
  hashMatches_roundtrip (str "Str0ng!Pw") (hashPassword (str "Str0ng!Pw")) (str "Str0ng!Pw")
    rfl rfl

/-! ## Store lemmas -/

theorem cstr_isCString (s : CppString) : IsCString (cstr s) := by
  intro c hc
  have := List.mem_takeWhile_imp hc
  simpa using this

theorem isCString_of_isValidUsername (u : CppString) (h : isValidUsername u = true) :
    IsCString u := by
  intro c hc
  have hr := (isValidUsername_iff u).mp h
  rcases hr.2.2 c hc with h1 | h1 | h1
  · unfold IsAsciiLetter at h1; omega
  · unfold IsAsciiDigit at h1; omega
  · unfold IsUnderscore at h1; omega

theorem whereUsername_iff (name : CppString) (r : Account) :
    whereUsername name r = true ↔ r.username = name := by
  simp [whereUsername]

theorem userExists_iff (db : Database) (u : CppString) :
    userExists db u = true ↔ ∃ r ∈ db.users, r.username = cstr u := by
  simp only [userExists, bindText, decide_eq_true_eq, gt_iff_lt, List.countP_pos_iff,
    whereUsername_iff]

theorem userExists_eq_false_iff (db : Database) (u : CppString) :
    userExists db u = false ↔ ∀ r ∈ db.users, r.username ≠ cstr u := by
  rw [← Bool.not_eq_true, userExists_iff]
  simp

theorem find?_whereUsername_of_mem (users : List Account)
    (hn : (users.map Account.username).Nodup) (a : Account) (ha : a ∈ users) :
    users.find? (whereUsername a.username) = some a := by
  induction users with
  | nil => cases ha
  | cons r rs ih =>
    rw [List.map_cons, List.nodup_cons] at hn
    rcases List.mem_cons.mp ha with h | h
    · subst h
      simp [List.find?_cons, whereUsername]
    · have hne : r.username ≠ a.username := by
        intro he
        exact hn.1 (he ▸ List.mem_map_of_mem Account.username h)
      simp only [List.find?_cons, whereUsername, hne, decide_False]
      exact ih hn.2 h

theorem eq_of_username_eq (db : Database) (hv : db.Valid) (r a : Account)
    (hr : r ∈ db.users) (ha : a ∈ db.users) (h : r.username = a.username) : r = a :=
  List.inj_on_of_nodup_map hv.1 hr ha h

theorem map_where_eq_replace (db : Database) (hv : db.Valid) (a : Account)
    (ha : a ∈ db.users) (f : Account → Account) :
    (db.users.map fun r => if whereUsername a.username r then f r else r) =
      db.users.map fun r => if r = a then f a else r := by
  apply List.map_congr_left
  intro r hr
  by_cases h : r = a
  · subst h; simp [whereUsername]
  · have hne : r.username ≠ a.username := fun he => h (eq_of_username_eq db hv r a hr ha he)
    simp [whereUsername, h, hne]

theorem userExists_iff_of_valid_username (db : Database) (u : CppString)
    (hu : isValidUsername u = true) :
    userExists db u = true ↔ ∃ r ∈ db.users, r.username = u := by
  rw [userExists_iff, cstr_eq_self u (isCString_of_isValidUsername u hu)]

theorem any_whereUsername_eq_false (db : Database) (u : CppString)
    (hne : userExists db u = false) :
    db.users.any (whereUsername (bindText u)) = false := by
  rw [userExists_eq_false_iff] at hne
  rw [List.any_eq_false]
  intro r hr
  rw [whereUsername_iff]
  exact hne r hr

theorem insertUser_of_not_exists (db : Database) (u p : CppString) (now : Timestamp)
    (hu : isValidUsername u = true) (hne : userExists db u = false)
    (hid : nextId db ≤ maxRowid) :
    insertUser db u p now =
      (true, { users := db.users ++ [newAccount db u p now], sequence := nextId db }) := by
  have hid' : ¬ maxRowid < nextId db := Nat.not_lt.mpr hid
  unfold insertUser
  simp only [any_whereUsername_eq_false db u hne, Bool.false_eq_true, if_false, hid']
  simp only [newAccount, bindText, cstr_hashPassword,
    cstr_eq_self u (isCString_of_isValidUsername u hu)]

/-- With every rowid handed out the `INSERT` fails and the table is as before. -/
theorem insertUser_of_full (db : Database) (u p : CppString) (now : Timestamp)
    (hfull : maxRowid < nextId db) : insertUser db u p now = (false, db) := by
  unfold insertUser
  by_cases hany : db.users.any (whereUsername (bindText u)) = true
  · simp only [hany, if_true]
  · simp only [hany, Bool.false_eq_true, if_false, hfull, if_true]

/-- The outcome once the username and password checks have passed. -/
theorem registerUser_of_checks (db : Database) (u p : CppString) (now : Timestamp)
    (hu : isValidUsername u = true) (hne : userExists db u = false)
    (hp : isValidPassword p = true) :
    registerUser db u p p now =
      if nextId db ≤ maxRowid then
        (.success, { users := db.users ++ [newAccount db u p now], sequence := nextId db })
      else (.insertFailed, db) := by
  unfold registerUser
  by_cases hid : nextId db ≤ maxRowid
  · simp [hu, hne, hp, hid, insertUser_of_not_exists db u p now hu hne hid]
  · simp [hu, hne, hp, hid, insertUser_of_full db u p now (Nat.not_le.mp hid)]

theorem registerUser_success_inv (db : Database) (u p c : CppString) (now : Timestamp)
    (h : (registerUser db u p c now).1 = .success) :
    isValidUsername u = true ∧ userExists db u = false ∧ isValidPassword p = true ∧ p = c ∧
      nextId db ≤ maxRowid := by
  by_cases hu : isValidUsername u = true
  · by_cases he : userExists db u = true
    · simp [registerUser, hu, he] at h
    · have he' : userExists db u = false := by simpa using he
      by_cases hp : isValidPassword p = true
      · by_cases hc : p = c
        · subst hc
          refine ⟨hu, he', hp, rfl, ?_⟩
          by_cases hid : nextId db ≤ maxRowid
          · exact hid
          · rw [registerUser_of_checks db u p now hu he' hp] at h
            simp [hid] at h
        · simp [registerUser, hu, he, hp, hc] at h
      · simp [registerUser, hu, he, hp] at h
  · simp [registerUser, hu] at h

/-- C5 (amended). `registerUser` reports the first failing check in the order
(1) username format, (2) username already in the table, (3) password policy,
(4) password differs from its confirmation, and succeeds only when all four
pass: exactly when they pass and the `INSERT` has a rowid left, while with
every rowid handed out the outcome is `insertFailed`; a registration that
does not succeed leaves the table as it was. -/
theorem registerUser_check_order (db : Database) (u p c : CppString) (now : Timestamp) :
    (isValidUsername u = false → (registerUser db u p c now).1 = .invalidUsername) ∧
    (isValidUsername u = true → (∃ r ∈ db.users, r.username = u) →
      (registerUser db u p c now).1 = .duplicateUsername) ∧
    (isValidUsername u = true → (∀ r ∈ db.users, r.username ≠ u) →
      isValidPassword p = false → (registerUser db u p c now).1 = .weakPassword) ∧
    (isValidUsername u = true → (∀ r ∈ db.users, r.username ≠ u) →
      isValidPassword p = true → p ≠ c →
      (registerUser db u p c now).1 = .passwordMismatch) ∧
    ((registerUser db u p c now).1 = .success ↔
      (isValidUsername u = true ∧ (∀ r ∈ db.users, r.username ≠ u) ∧
        isValidPassword p = true ∧ p = c ∧ nextId db ≤ maxRowid)) ∧
    ((registerUser db u p c now).1 = .insertFailed ↔
      (isValidUsername u = true ∧ (∀ r ∈ db.users, r.username ≠ u) ∧
        isValidPassword p = true ∧ p = c ∧ maxRowid < nextId db)) ∧
    ((registerUser db u p c now).1 ≠ .success → (registerUser db u p c now).2 = db) := by
  by_cases hu : isValidUsername u = true
  · have hex := userExists_iff_of_valid_username db u hu
    by_cases he : userExists db u = true
    · have hex' := hex.mp he
      have hnot : ¬ ∀ r ∈ db.users, r.username ≠ u := by
        obtain ⟨r, hr, hn⟩ := hex'
        exact fun h => h r hr hn
      simp [registerUser, hu, he, hex', hnot]
    · have he' : userExists db u = false := by simpa using he
      have hall : ∀ r ∈ db.users, r.username ≠ u := by
        intro r hr hn
        exact he (hex.mpr ⟨r, hr, hn⟩)
      have hnex : ¬ ∃ r ∈ db.users, r.username = u := fun ⟨r, hr, hn⟩ => hall r hr hn
      by_cases hp : isValidPassword p = true
      · by_cases hc : p = c
        · subst hc
          have hres := registerUser_of_checks db u p now hu he' hp
          by_cases hid : nextId db ≤ maxRowid
          · have hnf : ¬ maxRowid < nextId db := Nat.not_lt.mpr hid
            rw [if_pos hid] at hres
            rw [hres]
            refine ⟨fun h => by simp [hu] at h, fun _ h => absurd h hnex,
              fun _ _ h => by simp [hp] at h, fun _ _ _ h => absurd rfl h,
              ⟨fun _ => ⟨hu, hall, hp, rfl, hid⟩, fun _ => rfl⟩,
              ⟨fun h => by simp at h, fun h => absurd h.2.2.2.2 hnf⟩,
              fun h => absurd rfl h⟩
          · have hf : maxRowid < nextId db := Nat.not_le.mp hid
            rw [if_neg hid] at hres
            rw [hres]
            refine ⟨fun h => by simp [hu] at h, fun _ h => absurd h hnex,
              fun _ _ h => by simp [hp] at h, fun _ _ _ h => absurd rfl h,
              ⟨fun h => by simp at h, fun h => absurd h.2.2.2.2 hid⟩,
              ⟨fun _ => ⟨hu, hall, hp, rfl, hf⟩, fun _ => rfl⟩,
              fun _ => rfl⟩
        · simp [registerUser, hu, he', hp, hc, hnex, hall]
      · have hp' : isValidPassword p = false := by simpa using hp
        simp [registerUser, hu, he', hp', hnex, hall]
  · have hu' : isValidUsername u = false := by simpa using hu
    simp [registerUser, hu']

set_option maxRecDepth 100000 in
/-- C5, counterexample. With a valid new username, a weak password and a
different confirmation the outcome is `weakPassword`, not `passwordMismatch`;
with a registered username and a weak password the outcome is
`duplicateUsername`, not `weakPassword`. -/
theorem registerUser_order_counterexample :
    (isValidUsername alice = true ∧ str "weak" ≠ str "other" ∧
      (registerUser Database.empty alice (str "weak") (str "other") 100).1
        = RegisterOutcome.weakPassword ∧
      (registerUser Database.empty alice (str "weak") (str "other") 100).1
        ≠ RegisterOutcome.passwordMismatch) ∧
    (isValidUsername alice = true ∧ (∃ r ∈ aliceDb.users, r.username = alice) ∧
      isValidPassword (str "weakpass") = false ∧
      (registerUser aliceDb alice (str "weakpass") (str "weakpass") 200).1
        = RegisterOutcome.duplicateUsername ∧
      (registerUser aliceDb alice (str "weakpass") (str "weakpass") 200).1
        ≠ RegisterOutcome.weakPassword) := by
  refine ⟨⟨by decide, by decide, by decide, by decide⟩,
    ⟨by decide, by decide, by decide, by decide, by decide⟩⟩

/-- C6. Whenever registration succeeds, the username is valid and was not in
the table, the password satisfies the policy and equals its confirmation, and
the table is then the previous rows, unchanged, followed by one new row with
that username, the hash of the password, `failed_attempts = 0`,
`is_active = 1` (an active account) and no `last_login`. And registration does
succeed under these conditions as long as the `INSERT` has a rowid left (the
largest rowid, `2^63 - 1`, has not been handed out). -/
theorem registerUser_success (db : Database) (u p c : CppString) (now : Timestamp) :
    ((registerUser db u p c now).1 = .success →
      (isValidUsername u = true ∧ (∀ r ∈ db.users, r.username ≠ u) ∧ p = c ∧
        isValidPassword p = true) ∧
      (registerUser db u p c now).2.users = db.users ++ [newAccount db u p now] ∧
      (newAccount db u p now).username = u ∧
      (newAccount db u p now).password_hash = hashPassword p ∧
      (newAccount db u p now).failed_attempts = 0 ∧
      (newAccount db u p now).is_active = 1 ∧
      (newAccount db u p now).Active ∧
      (newAccount db u p now).last_login = none ∧
      (newAccount db u p now).registration_date = now) ∧
    (isValidUsername u = true → (∀ r ∈ db.users, r.username ≠ u) → p = c →
      isValidPassword p = true → nextId db ≤ maxRowid →
      (registerUser db u p c now).1 = .success) := by
  constructor
  · intro hs
    obtain ⟨hu, he, hp, hc, hid⟩ := registerUser_success_inv db u p c now hs
    subst hc
    have hnew : ∀ r ∈ db.users, r.username ≠ u := by
      intro r hr hn
      have := (userExists_iff_of_valid_username db u hu).mpr ⟨r, hr, hn⟩
      rw [he] at this
      cases this
    have hres := registerUser_of_checks db u p now hu he hp
    rw [if_pos hid] at hres
    refine ⟨⟨hu, hnew, rfl, hp⟩, ?_, rfl, rfl, rfl, rfl, ?_, rfl, rfl⟩
    · rw [hres]
    · show columnInt 1 ≠ 0
      decide
  · intro hu hnew hc hp hid
    have he : userExists db u = false := by
      rw [← Bool.not_eq_true, userExists_iff_of_valid_username db u hu]
      exact fun ⟨r, hr, hn⟩ => hnew r hr hn
    subst hc
    rw [registerUser_of_checks db u p now hu he hp, if_pos hid]

set_option maxRecDepth 100000 in
/-- Witness of C6: `alice_01` registers with `Str0ng!Pw` on the empty table. -/
theorem registerUser_success_witness :
    (registerUser Database.empty alice strongPw strongPw 100).1 = .success ∧
    (registerUser Database.empty alice strongPw strongPw 100).2.users =
      [] ++ [newAccount Database.empty alice strongPw 100] :=
  have h := registerUser_success Database.empty alice strongPw strongPw 100
  have hs := h.2 (by decide) (by decide) rfl (by decide) (by decide)
  ⟨hs, (h.1 hs).2.1⟩

/-! ## The table stays valid -/

theorem valid_empty : Database.empty.Valid := by
  simp [Database.Valid, Database.empty]

theorem valid_map (db : Database) (hv : db.Valid) (f : Account → Account)
    (hf : ∀ r, (f r).username = r.username ∧ (f r).password_hash = r.password_hash) :
    Database.Valid { db with users := db.users.map f } := by
  constructor
  · have : (db.users.map f).map Account.username = db.users.map Account.username := by
      rw [List.map_map]
      apply List.map_congr_left
      intro r _
      exact (hf r).1
    rw [this]
    exact hv.1
  · intro r hr
    obtain ⟨r0, hr0, rfl⟩ := List.mem_map.mp hr
    rw [(hf r0).1, (hf r0).2]
    exact hv.2 r0 hr0

theorem updateLastLogin_valid (db : Database) (hv : db.Valid) (u : CppString)
    (now : Timestamp) : (updateLastLogin db u now).Valid := by
  apply valid_map db hv
  intro r
  by_cases h : whereUsername (bindText u) r = true <;> simp [h]

theorem incrementFailedAttempts_valid (db : Database) (hv : db.Valid) (u : CppString) :
    (incrementFailedAttempts db u).Valid := by
  apply valid_map db hv
  intro r
  by_cases h : whereUsername (bindText u) r = true <;> simp [h]

theorem verifyCredentials_valid (db : Database) (hv : db.Valid) (u q : CppString)
    (now : Timestamp) : (verifyCredentials db u q now).2.Valid := by
  unfold verifyCredentials
  by_cases h : credentialsValid db u q = true
  · simpa [h] using updateLastLogin_valid db hv u now
  · simpa [h] using incrementFailedAttempts_valid db hv u

theorem loginUser_snd (db : Database) (u q : CppString) (now : Timestamp) :
    (loginUser db u q now).2 =
      if userExists db u then (verifyCredentials db u q now).2 else db := by
  unfold loginUser
  by_cases he : userExists db u = true
  · simp only [he, Bool.not_true, Bool.false_eq_true, if_false, if_true]
    cases hvc : verifyCredentials db u q now with
    | mk b db' => cases b <;> rfl
  · simp [he]

theorem loginUser_valid (db : Database) (hv : db.Valid) (u q : CppString)
    (now : Timestamp) : (loginUser db u q now).2.Valid := by
  rw [loginUser_snd]
  by_cases he : userExists db u = true
  · simpa [he] using verifyCredentials_valid db hv u q now
  · simpa [he] using hv

theorem insertUser_valid (db : Database) (hv : db.Valid) (u p : CppString)
    (now : Timestamp) : (insertUser db u p now).2.Valid := by
  unfold insertUser
  by_cases hany : db.users.any (whereUsername (bindText u)) = true
  · simpa [hany] using hv
  · have hany' : db.users.any (whereUsername (bindText u)) = false := by simpa using hany
    simp only [hany', Bool.false_eq_true, if_false]
    by_cases hfull : maxRowid < nextId db
    · simpa [hfull] using hv
    simp only [hfull, if_false]
    have hnone : ∀ r ∈ db.users, r.username ≠ bindText u := by
      intro r hr hn
      apply hany
      rw [List.any_eq_true]
      exact ⟨r, hr, (whereUsername_iff _ r).mpr hn⟩
    constructor
    · simp only [List.map_append, List.map_cons, List.map_nil]
      rw [List.nodup_append]
      refine ⟨hv.1, List.nodup_singleton _, ?_⟩
      intro x hx hx'
      rw [List.mem_singleton] at hx'
      obtain ⟨r, hr, rfl⟩ := List.mem_map.mp hx
      exact hnone r hr hx'
    · intro r hr
      rcases List.mem_append.mp hr with h | h
      · exact hv.2 r h
      · rw [List.mem_singleton] at h
        subst h
        exact ⟨cstr_isCString u, cstr_isCString _⟩

theorem registerUser_snd (db : Database) (u p c : CppString) (now : Timestamp) :
    (registerUser db u p c now).2 = db ∨
      (registerUser db u p c now).2 = (insertUser db u p now).2 := by
  unfold registerUser
  by_cases hu : isValidUsername u = true
  · by_cases he : userExists db u = true
    · simp [hu, he]
    · by_cases hp : isValidPassword p = true
      · by_cases hc : p = c
        · subst hc
          right
          have he' : userExists db u = false := by simpa using he
          simp only [hu, he', hp, Bool.not_true, Bool.false_eq_true, if_false, ne_eq,
            not_true_eq_false]
          cases hins : insertUser db u p now with
          | mk b db' => cases b <;> rfl
        · simp [hu, he, hp, hc]
      · simp [hu, he, hp]
  · simp [hu]

theorem registerUser_valid (db : Database) (hv : db.Valid) (u p c : CppString)
    (now : Timestamp) : (registerUser db u p c now).2.Valid := by
  rcases registerUser_snd db u p c now with h | h
  · rw [h]; exact hv
  · rw [h]; exact insertUser_valid db hv u p now

theorem apply_valid (db : Database) (hv : db.Valid) (req : Request) :
    (req.apply db).Valid := by
  cases req with
  | register u p c now => exact registerUser_valid db hv u p c now
  | login u q now => exact loginUser_valid db hv u q now

theorem run_valid (reqs : List Request) :
    ∀ db : Database, db.Valid → (run db reqs).Valid := by
  induction reqs with
  | nil => intro db hv; exact hv
  | cons req reqs ih =>
    intro db hv
    exact ih (req.apply db) (apply_valid db hv req)

/-- C7. In every state of the table reached from the empty table by register
and login requests, successful or not, no two accounts carry the same
username (compared byte by byte); and a register request for a username that
an account already carries leaves the table as it is. -/
theorem usernames_unique (reqs : List Request) :
    (run Database.empty reqs).users.Pairwise (fun a b => a.username ≠ b.username) ∧
    ((run Database.empty reqs).users.map Account.username).Nodup ∧
    (∀ (db : Database) (u p c : CppString) (now : Timestamp),
      (∃ r ∈ db.users, r.username = u) → (registerUser db u p c now).2 = db) := by
  have hv := (run_valid reqs Database.empty valid_empty).1
  refine ⟨?_, hv, ?_⟩
  · exact (List.pairwise_map).mp hv
  · intro db u p c now hex
    unfold registerUser
    by_cases hu : isValidUsername u = true
    · have he := (userExists_iff_of_valid_username db u hu).mpr hex
      simp [hu, he]
    · simp [hu]

/-! ## Login -/

theorem userExists_of_mem (db : Database) (hv : db.Valid) (a : Account)
    (ha : a ∈ db.users) : userExists db a.username = true := by
  rw [userExists_iff]
  exact ⟨a, ha, (cstr_eq_self _ (hv.2 a ha).1).symm⟩

theorem credentialsValid_of_mem (db : Database) (hv : db.Valid) (a : Account)
    (ha : a ∈ db.users) (q : CppString) :
    credentialsValid db a.username q =
      (decide a.Active && decide (a.password_hash = hashPassword q)) := by
  unfold credentialsValid
  rw [bindText, cstr_eq_self _ (hv.2 a ha).1, find?_whereUsername_of_mem db.users hv.1 a ha]
  simp only [columnText, cstr_eq_self _ (hv.2 a ha).2, hashMatches, Account.Active]
  by_cases h : columnInt a.is_active = 0 <;> simp [h]

/-- Below the top of the 64-bit range the sum is the integer sum. -/
theorem sqlAddOne_of_lt (v : Int) (hlo : int64Min ≤ v) (hhi : v < int64Max) :
    sqlAddOne v = v + 1 := by
  unfold sqlAddOne
  rw [if_pos ⟨hlo, hhi⟩]

/-- At the top of the 64-bit range the sum becomes the REAL `2^63`, which the
next sum gives back unchanged. -/
theorem sqlAddOne_top :
    sqlAddOne int64Max = int64Max + 1 ∧ sqlAddOne (int64Max + 1) = int64Max + 1 := by
  constructor <;> decide

theorem incrementFailedAttempts_eq_replace (db : Database) (hv : db.Valid) (a : Account)
    (ha : a ∈ db.users) :
    incrementFailedAttempts db a.username =
      db.replace a { a with failed_attempts := sqlAddOne a.failed_attempts } := by
  unfold incrementFailedAttempts Database.replace
  rw [bindText, cstr_eq_self _ (hv.2 a ha).1, map_where_eq_replace db hv a ha]

/-- A login that fails verification: the outcome is `invalidPassword` and the
row only gets one more failed attempt. -/
theorem loginUser_of_not_valid (db : Database) (hv : db.Valid) (a : Account)
    (ha : a ∈ db.users) (q : CppString) (now : Timestamp)
    (h : credentialsValid db a.username q = false)
    (hlo : int64Min ≤ a.failed_attempts) (hhi : a.failed_attempts < int64Max) :
    loginUser db a.username q now =
      (.invalidPassword, db.replace a { a with failed_attempts := a.failed_attempts + 1 }) := by
  unfold loginUser verifyCredentials
  simp only [userExists_of_mem db hv a ha, h, Bool.not_true, Bool.false_eq_true, if_false,
    incrementFailedAttempts_eq_replace db hv a ha, sqlAddOne_of_lt _ hlo hhi]

theorem loginUser_wrong (db : Database) (hv : db.Valid) (a : Account) (ha : a ∈ db.users)
    (p q : CppString) (hp : a.password_hash = hashPassword p) (hq : q ≠ p)
    (now : Timestamp) (hlo : int64Min ≤ a.failed_attempts)
    (hhi : a.failed_attempts < int64Max) :
    loginUser db a.username q now =
      (.invalidPassword, db.replace a { a with failed_attempts := a.failed_attempts + 1 }) := by
  apply loginUser_of_not_valid db hv a ha q now _ hlo hhi
  rw [credentialsValid_of_mem db hv a ha]
  have hne : a.password_hash ≠ hashPassword q := by
    rw [hp]
    exact fun he => hq (hashPassword_injective p q he).symm
  simp [hne]

theorem mem_replace (db : Database) (a b : Account) (ha : a ∈ db.users) :
    b ∈ (db.replace a b).users :=
  List.mem_map.mpr ⟨a, ha, by simp⟩

/-- Wrong passwords in a row: each one adds one to the counter of the row, as
long as the counter stays a 64-bit INTEGER. -/
theorem wrong_attempts (u p : CppString) (attempts : List (CppString × Timestamp))
    (hw : ∀ x ∈ attempts, x.1 ≠ p) :
    ∀ (db : Database) (a : Account), db.Valid → a ∈ db.users → a.username = u →
      a.password_hash = hashPassword p → int64Min ≤ a.failed_attempts →
      a.failed_attempts + attempts.length ≤ int64Max →
      ∃ b ∈ (run db (attempts.map fun x => Request.login u x.1 x.2)).users,
        b.username = u ∧ b.failed_attempts = a.failed_attempts + attempts.length := by
  induction attempts with
  | nil =>
    intro db a _ ha hu _ _ _
    exact ⟨a, ha, hu, by simp⟩
  | cons x xs ih =>
    intro db a hv ha hu hp hlo hhi
    subst hu
    simp only [List.length_cons, Nat.cast_add, Nat.cast_one] at hhi
    have hx : x.1 ≠ p := hw x (List.mem_cons_self x xs)
    have hstep := loginUser_wrong db hv a ha p x.1 hp hx x.2 hlo (by omega)
    have hv' : (loginUser db a.username x.1 x.2).2.Valid :=
      loginUser_valid db hv a.username x.1 x.2
    rw [hstep] at hv'
    obtain ⟨b, hb, hbu, hbf⟩ :=
      ih (fun y hy => hw y (List.mem_cons_of_mem x hy))
        (db.replace a { a with failed_attempts := a.failed_attempts + 1 })
        { a with failed_attempts := a.failed_attempts + 1 } hv'
        (mem_replace db a _ ha) rfl hp (by show int64Min ≤ a.failed_attempts + 1; omega)
        (by show a.failed_attempts + 1 + (xs.length : Int) ≤ int64Max; omega)
    refine ⟨b, ?_, hbu, ?_⟩
    · simpa [run, Request.apply, hstep] using hb
    · rw [hbf]
      simp only [List.length_cons, Nat.cast_add, Nat.cast_one]
      omega

/-- C8. On a valid table, for every active account whose stored hash is
`hashPassword p` and whose `failed_attempts` is a 64-bit INTEGER below the top
of its range, a login with a password `q ≠ p` is rejected with
`invalidPassword`, and the table afterwards is the old one with that row's
`failed_attempts` one higher: its other columns and every other row are as
before. So after a registration with password `p`, any `k` logins in a row
with passwords other than `p`, `k` at most `2^63 - 1`, leave the account with
`failed_attempts = k`. -/
theorem login_wrong_password (db : Database) (hv : db.Valid) :
    (∀ a ∈ db.users, a.Active → int64Min ≤ a.failed_attempts →
      a.failed_attempts < int64Max →
      ∀ p q : CppString, a.password_hash = hashPassword p →
      q ≠ p → ∀ now : Timestamp,
      loginUser db a.username q now =
        (.invalidPassword,
          db.replace a { a with failed_attempts := a.failed_attempts + 1 })) ∧
    (∀ (u p : CppString) (t : Timestamp) (attempts : List (CppString × Timestamp)),
      (registerUser db u p p t).1 = .success → (∀ x ∈ attempts, x.1 ≠ p) →
      (attempts.length : Int) ≤ int64Max →
      ∃ b ∈ (run (registerUser db u p p t).2
          (attempts.map fun x => Request.login u x.1 x.2)).users,
        b.username = u ∧ b.failed_attempts = attempts.length) := by
  refine ⟨fun a ha _ hlo hhi p q hp hq now =>
    loginUser_wrong db hv a ha p q hp hq now hlo hhi, ?_⟩
  intro u p t attempts hs hw hk
  obtain ⟨hu, he, hpw, _, hid⟩ := registerUser_success_inv db u p p t hs
  have hdb := registerUser_of_checks db u p t hu he hpw
  rw [if_pos hid] at hdb
  have hv' := registerUser_valid db hv u p p t
  rw [hdb] at hv' ⊢
  obtain ⟨b, hb, hbu, hbf⟩ := wrong_attempts u p attempts hw _ (newAccount db u p t) hv'
    (by simp) rfl rfl (by show int64Min ≤ (0 : Int); decide)
    (by show (0 : Int) + (attempts.length : Int) ≤ int64Max; omega)
  exact ⟨b, hb, hbu, by simpa [newAccount] using hbf⟩

set_option maxRecDepth 100000 in
/-- Witness of C8: `alice_01`, registered with `Str0ng!Pw`, logs in with
`wrong`; and on the empty table, `alice_01` registers and then logs in with
`wrong` and with `guess`. -/
theorem login_wrong_password_witness :
    loginUser aliceDb aliceRow.username (str "wrong") 200 =
      (.invalidPassword,
        aliceDb.replace aliceRow
          { aliceRow with failed_attempts := aliceRow.failed_attempts + 1 }) ∧
    ∃ b ∈ (run (registerUser Database.empty alice strongPw strongPw 100).2
        ([(str "wrong", 200), (str "guess", 300)].map
          fun x => Request.login alice x.1 x.2)).users,
      b.username = alice ∧
        b.failed_attempts = ([(str "wrong", 200), (str "guess", 300)].length : Nat) :=
  ⟨(login_wrong_password aliceDb (by decide)).1 aliceRow (by decide) (by decide) (by decide)
      (by decide) strongPw (str "wrong") rfl (by decide) 200,
    (login_wrong_password Database.empty (by decide)).2 alice strongPw 100
      [(str "wrong", 200), (str "guess", 300)] (by decide) (by decide) (by decide)⟩

set_option maxRecDepth 100000 in
/-- Reading back the two digits written for a byte gives the byte. -/
theorem toChar_strtol_hexByte : ∀ c : Byte, toChar (strtol (cstr (hexByte c)) 16) = c := by
  decide

set_option maxRecDepth 100000 in
/-- On two hexadecimal digits `unhashByte` is the number they write, XORed with
the key. -/
theorem unhashByte_hexDigits :
    ∀ a b : Fin 16,
      unhashByte [hexDigit a.val, hexDigit b.val] = byte ((16 * a.val + b.val) ^^^ 42) := by
  decide

set_option maxRecDepth 100000 in
theorem xorByte_val : ∀ c : Byte, (xorByte c).val = c.val ^^^ 42 := by
  decide

set_option maxRecDepth 100000 in
theorem hexDigit_lower_fin : ∀ a : Fin 16, IsLowerHexDigit (hexDigit a.val) := by
  unfold IsLowerHexDigit
  decide

theorem hexDigit_lower (a : Nat) (ha : a < 16) : IsLowerHexDigit (hexDigit a) :=
  hexDigit_lower_fin ⟨a, ha⟩

theorem unhashByte_hexByte_xorByte (c : Byte) :
    unhashByte (hexByte (xorByte c)) = c := by
  unfold unhashByte
  rw [toChar_strtol_hexByte, xorByte_xorByte]

theorem hashPassword_cons_digits (c : Byte) (cs : CppString) :
    hashPassword (c :: cs) =
      hexDigit ((c.val ^^^ 42) / 16) :: hexDigit ((c.val ^^^ 42) % 16) :: hashPassword cs := by
  rw [hashPassword_cons, hexByte_eq, xorByte_val]
  rfl

/-- The inverse transform undoes the transform. -/
theorem unhash_hash (p : CppString) : unhashPassword (hashPassword p) = p := by
  induction p with
  | nil => rfl
  | cons c cs ih =>
    have h := unhashByte_hexByte_xorByte c
    rw [hexByte_eq, xorByte_val] at h
    rw [hashPassword_cons_digits, unhashPassword, h, ih]

/-- C11. The transform of the source is reversible: for every byte string `p`,
`unhashPassword (hashPassword p) = p`. Here `hashPassword` writes, for each
byte, the two lower-case hexadecimal digits of the byte XORed with 42, so its
output has length `2 * length p`; `unhashPassword` takes two characters at a
time, reads them as a hexadecimal number and XORs it with 42. Hence
`hashPassword` is injective: distinct passwords have distinct hashes. -/
theorem unhashPassword_hashPassword (p : CppString) :
    unhashPassword (hashPassword p) = p ∧
    hashPassword p =
      p.flatMap (fun c => [hexDigit ((c.val ^^^ 42) / 16), hexDigit ((c.val ^^^ 42) % 16)]) ∧
    (hashPassword p).length = 2 * p.length ∧
    (∀ b ∈ hashPassword p, IsLowerHexDigit b) ∧
    (∀ (a b : Byte) (rest : CppString),
      unhashPassword (a :: b :: rest) = unhashByte [a, b] :: unhashPassword rest) ∧
    (∀ a b : Fin 16,
      unhashByte [hexDigit a.val, hexDigit b.val] = byte ((16 * a.val + b.val) ^^^ 42)) ∧
    (∀ q : CppString, q ≠ p → hashPassword q ≠ hashPassword p) := by
  have hxor : ∀ c : Byte, c.val ^^^ 42 < 256 := by
    intro c
    rw [← xorByte_val]
    exact (xorByte c).isLt
  refine ⟨unhash_hash p, ?_, ?_, ?_, fun _ _ _ => rfl, unhashByte_hexDigits, ?_⟩
  · induction p with
    | nil => rfl
    | cons c cs ih => rw [hashPassword_cons_digits, ih]; rfl
  · induction p with
    | nil => rfl
    | cons c cs ih =>
      rw [hashPassword_cons_digits]
      simp only [List.length_cons, ih]
      omega
  · induction p with
    | nil => intro b hb; simp [hashPassword_nil] at hb
    | cons c cs ih =>
      intro b hb
      rw [hashPassword_cons_digits] at hb
      have hlt := hxor c
      rcases List.mem_cons.mp hb with h | h
      · rw [h]; exact hexDigit_lower _ (by omega)
      · rcases List.mem_cons.mp h with h | h
        · rw [h]; exact hexDigit_lower _ (Nat.mod_lt _ (by decide))
        · exact ih b h
  · intro q hne heq
    apply hne
    rw [← unhash_hash q, heq, unhash_hash p]

end LoginRegistrationSystem
